import Mathlib

/-!
Verification of the cargo-gh release pipeline (the `cargo-ghinstall` and
`cargo-ghdist` crates) against its natural-language specification.

The Rust sources are shallowly embedded.  Strings are Lean `String`s but
every operation works on their character lists (`String.data`), so that
all definitions evaluate inside the kernel.  Fallible code returns
`Except`.  Network and filesystem effects are passed in explicitly: an
async operation handed to the retry wrapper becomes a function from the
attempt number to that attempt's outcome, a download becomes a function
from the asset to the fetched text, and the forge itself becomes an
explicit state value threaded through the publish operations.
-/

namespace CargoGh

/-! ### String primitives mirroring the Rust `str` methods used by the code -/

/-- Substring containment on character lists, mirroring Rust `str::contains`:
the needle is a prefix of some suffix of the haystack. -/
def listContains (needle : List Char) : List Char → Bool
  | [] => needle.isPrefixOf []
  | c :: t => needle.isPrefixOf (c :: t) || listContains needle t

/-- Rust `str::contains` with a string pattern. -/
def strContains (s pat : String) : Bool :=
  listContains pat.data s.data

/-- Rust `str::ends_with` with a string pattern. -/
def strEndsWith (s pat : String) : Bool :=
  pat.data.isSuffixOf s.data

/-- Rust `str::to_lowercase`.  The code only compares hex digests this way,
so the ASCII lowering of `Char.toLower` is an exact match on all inputs the
program produces. -/
def strToLower (s : String) : String :=
  ⟨s.data.map Char.toLower⟩

/-- Rust `str::split_whitespace`: split at whitespace characters and drop
the empty words, so any run of spaces or tabs separates two fields. -/
def split_whitespace (s : String) : List String :=
  ((List.splitOnP (fun c => c.isWhitespace) s.data).filter (fun w => !w.isEmpty)).map
    (fun w => ⟨w⟩)

/-- Split a character list at every occurrence of `c` (the separators are
consumed; `n` separators produce `n + 1` chunks). -/
def splitOnChar (c : Char) : List Char → List (List Char)
  | [] => [[]]
  | x :: xs =>
    let r := splitOnChar c xs
    if x = c then [] :: r
    else
      match r with
      | [] => [[x]]
      | w :: ws => (x :: w) :: ws

/-- Rust `str::lines`: split at `\n`, remove a `\r` that preceded a `\n`,
and do not produce a final empty line for a trailing line ending. -/
def rustLines (s : String) : List String :=
  let parts := splitOnChar '\n' s.data
  let strip := fun w : List Char => if w.getLast? = some '\r' then w.dropLast else w
  let body := (parts.dropLast.map strip).map (fun w : List Char => (⟨w⟩ : String))
  match parts.getLast? with
  | none => body
  | some [] => body
  | some w => body ++ [(⟨w⟩ : String)]

/-! ### Error data

`cargo-ghinstall/src/error.rs` and `cargo-ghdist/src/error.rs`.  Error
payloads carried by foreign types (octocrab, reqwest, io) keep only the
structure the embedded code inspects. -/

/-- The `std::io::ErrorKind` values distinguished by `is_retryable_error`. -/
inductive IoErrorKind where
  | connectionAborted
  | connectionReset
  | connectionRefused
  | timedOut
  | interrupted
  | unexpectedEof
  | notFound
  | otherKind
  deriving DecidableEq, Repr

/-- The parts of a `reqwest::Error` inspected by `is_retryable_error`. -/
structure ReqwestError where
  is_timeout : Bool
  is_connect : Bool
  status : Option Nat
  deriving DecidableEq, Repr

/-- An `anyhow::Error` as far as `is_retryable_error` can see it: a
`reqwest::Error`, an `std::io::Error`, or anything else. -/
inductive AnyError where
  | reqwest (e : ReqwestError)
  | io (kind : IoErrorKind)
  | other (msg : String)
  deriving DecidableEq, Repr

/-- The `GhInstallError` enum of `cargo-ghinstall/src/error.rs` (the
variants the embedded code constructs). -/
inductive GhInstallError where
  | ReleaseNotFound (tag owner repo : String)
  | AssetNotFound (target release_tag available : String)
  | Installation (message path : String)
  | SignatureVerification (file sig_file : String)
  | ChecksumVerification (file expected actual : String)
  | ArchiveExtraction (file reason : String)
  | ChecksumFileNotFound
  | DownloadFailed (asset url : String) (status : Nat) (message : String)
  | BinaryNotFound (name available : String)
  | NoExecutablesFound (archive : String)
  | Io (message : String)
  deriving DecidableEq, Repr

/-- The `GhDistError` enum of `cargo-ghdist/src/error.rs` (the variants the
embedded code constructs). -/
inductive GhDistError where
  | BuildFailed (target : String)
  | NoTag
  | Config (msg : String)
  | Package (msg : String)
  | ReleaseCreation (msg : String)
  | AssetUpload (msg : String)
  | InvalidRepo (msg : String)
  deriving DecidableEq, Repr

/-! ### Retrying transport — `cargo-ghinstall/src/retry.rs` -/

/-- `RetryConfig` (intervals in whole seconds as in the defaults; the time
fields feed the exponential backoff and are consumed by the model through
the `canRetry` schedule below). -/
structure RetryConfig where
  max_retries : Nat
  initial_interval : Nat
  max_interval : Nat
  max_elapsed_time : Option Nat
  deriving DecidableEq, Repr

/-- The retry loop of `with_retry`.  `remaining` counts how many retries
the attempt counter still allows (`attempt <= max_retries` in the source is
`remaining > 0` here); `canRetry k` is whether the exponential backoff
still yields a delay after the failure of attempt `k` (its deadline
`max_elapsed_time` has not run out).  An error is marked transient while
retries remain, and the backoff then either schedules another attempt or
gives up and returns that error; an error after the budget is marked
permanent and returned at once.  The result carries the attempt count. -/
def retryLoop {T : Type} (op : Nat → Except AnyError T) (canRetry : Nat → Bool) :
    Nat → Nat → Except AnyError T × Nat
  | remaining, attempt =>
    match op attempt with
    | .ok v => (.ok v, attempt)
    | .error e =>
      match remaining with
      | 0 => (.error e, attempt)
      | r + 1 =>
        if canRetry attempt then retryLoop op canRetry r (attempt + 1)
        else (.error e, attempt)

/-- `with_retry`: run the operation starting at attempt 1 with
`max_retries` retries available.  The propagated error is the operation's
own last error (`with_retry` only logs the operation name, it does not wrap
the error with it). -/
def with_retry {T : Type} (config : RetryConfig) (canRetry : Nat → Bool)
    (operation : Nat → Except AnyError T) : Except AnyError T × Nat :=
  retryLoop operation canRetry config.max_retries 1

/-- `is_retryable_error`: reqwest timeouts, connection errors, 5xx and 429
(or a missing status) are retryable; connection-shaped IO errors are
retryable; everything else is not.  `with_retry` never calls this
predicate. -/
def is_retryable_error : AnyError → Bool
  | .reqwest e =>
    e.is_timeout || e.is_connect ||
      (match e.status with
       | some s => decide (500 ≤ s ∧ s < 600) || decide (s = 429)
       | none => true)
  | .io kind =>
    match kind with
    | .connectionAborted => true
    | .connectionReset => true
    | .connectionRefused => true
    | .timedOut => true
    | .interrupted => true
    | .unexpectedEof => true
    | _ => false
  | .other _ => false

/-! ### Release data and the install-side client — `cargo-ghinstall/src/github.rs` -/

/-- The fields of an `octocrab` release asset that the code reads. -/
structure OctoAsset where
  name : String
  browser_download_url : String
  size : Nat
  id : Nat
  deriving DecidableEq, Repr

/-- The fields of an `octocrab` release that the code reads. -/
structure Release where
  id : Nat
  tag_name : String
  assets : List OctoAsset
  deriving DecidableEq, Repr

/-- `ReleaseAsset`, the struct `find_asset` returns. -/
structure ReleaseAsset where
  name : String
  url : String
  size : Nat
  deriving DecidableEq, Repr

/-- `is_archive`: the recognized archive suffixes. -/
def is_archive (name : String) : Bool :=
  strEndsWith name ".tar.gz" || strEndsWith name ".tgz" || strEndsWith name ".zip" ||
    strEndsWith name ".tar.xz" || strEndsWith name ".tar.bz2"

/-- `GitHubClient::find_asset`: first asset whose name contains the target,
has an archive suffix, and (when a non-empty binary name was given)
contains the binary name. -/
def find_asset (release : Release) (target : String) (bin_name : Option String) :
    Option ReleaseAsset :=
  (release.assets.find? (fun a =>
      strContains a.name target && is_archive a.name &&
        ((bin_name.getD "").data.isEmpty || strContains a.name (bin_name.getD "")))).map
    (fun a => ⟨a.name, a.browser_download_url, a.size⟩)

/-- `GitHubClient::get_release`: run the octocrab fetch under `with_retry`
and collapse any failure into `ReleaseNotFound` with the requested tag (the
literal `"latest"` when none was given), owner and repo. -/
def get_release (owner repo : String) (tag : Option String) (config : RetryConfig)
    (canRetry : Nat → Bool) (fetch : Nat → Except AnyError Release) :
    Except GhInstallError Release :=
  match (with_retry config canRetry fetch).1 with
  | .ok release => .ok release
  | .error _ => .error (.ReleaseNotFound (tag.getD "latest") owner repo)

/-! ### Checksum verification — `cargo-ghinstall/src/installer.rs` -/

/-- The loop body of `Installer::parse_checksum` over the manifest lines:
split a line at whitespace; with at least two fields, the first field is
the digest and the remaining fields joined by single spaces are the
recorded filename; a line matches when the recorded filename equals the
queried one or ends with a slash followed by it. -/
def parseChecksumLines (filename : String) : List String → Except GhInstallError String
  | [] => .error (.ChecksumVerification filename "Unknown" "Not found in checksum file")
  | line :: rest =>
    match split_whitespace line with
    | c :: f :: fs =>
      let file := String.intercalate " " (f :: fs)
      if file == filename || strEndsWith file ("/" ++ filename) then .ok c
      else parseChecksumLines filename rest
    | _ => parseChecksumLines filename rest

/-- `Installer::parse_checksum` on the manifest text. -/
def parse_checksum (content filename : String) : Except GhInstallError String :=
  parseChecksumLines filename (rustLines content)

/-- The digest-comparison tail of `Installer::verify_checksum`: look up the
expected digest in the manifest, then compare it with the freshly computed
one, lowercasing both sides. -/
def verify_digest (content filename actual : String) : Except GhInstallError Unit :=
  match parse_checksum content filename with
  | .error e => .error e
  | .ok expected =>
    if strToLower actual ≠ strToLower expected then
      .error (.ChecksumVerification filename expected actual)
    else .ok ()

/-- The manifest-location step of `Installer::verify_checksum`: the first
asset in the release's listed order whose name is `SHA256SUMS`,
`checksums.txt` or `sha256sums.txt`. -/
def findChecksumAsset (assets : List OctoAsset) : Option OctoAsset :=
  assets.find? (fun a =>
    a.name == "SHA256SUMS" || a.name == "checksums.txt" || a.name == "sha256sums.txt")

/-- `Installer::verify_checksum`: locate the manifest asset, fetch its text
(`fetch` stands for the download plus file read, errors already mapped),
then verify the digest; a release without any manifest asset is the
distinct `ChecksumFileNotFound` error. -/
def verify_checksum (release : Release) (assetName actual : String)
    (fetch : OctoAsset → Except GhInstallError String) : Except GhInstallError Unit :=
  match findChecksumAsset release.assets with
  | some checksumAsset =>
    match fetch checksumAsset with
    | .error e => .error e
    | .ok content => verify_digest content assetName actual
  | none => .error .ChecksumFileNotFound

/-- The fixed manifest names in the spec's priority order. -/
def checksumAssetNames : List String :=
  ["SHA256SUMS", "checksums.txt", "sha256sums.txt"]

/-- Manifest location as the claim words it: try each conventional name in
priority order, earlier names win regardless of asset order. -/
def findChecksumAssetSpec (assets : List OctoAsset) : Option OctoAsset :=
  match assets.find? (fun a => a.name == "SHA256SUMS") with
  | some a => some a
  | none =>
    match assets.find? (fun a => a.name == "checksums.txt") with
    | some a => some a
    | none => assets.find? (fun a => a.name == "sha256sums.txt")

/-- `Installer::install_binaries` reduced to the names it copies into the
install directory: all executables in `--bins` mode; the first executable
whose name contains the requested binary in `--bin` mode (an empty result
is `BinaryNotFound` with the available names); otherwise the first
executable whose name contains the repo name, or the first executable. -/
def install_binaries (executables : List String) (default_name : String)
    (bins : Bool) (bin : Option String) : Except GhInstallError (List String) :=
  if executables.isEmpty then .error (.NoExecutablesFound "archive")
  else if bins then .ok executables
  else
    match bin with
    | some bin_name =>
      match executables.find? (fun n => strContains n bin_name) with
      | some exe => .ok [exe]
      | none => .error (.BinaryNotFound bin_name (String.intercalate ", " executables))
    | none =>
      match executables.find? (fun n => strContains n default_name) with
      | some exe => .ok [exe]
      | none =>
        match executables with
        | exe :: _ => .ok [exe]
        | [] => .error (.NoExecutablesFound "archive")

/-- The tail of `Installer::run` after the asset download: verify the
checksum unless skipped, and only then extract and install; a verification
error aborts before anything is written, so the returned list of installed
names is the complete set of writes to the install directory. -/
def installPhase (skip_checksum : Bool) (release : Release) (assetName actual : String)
    (fetch : OctoAsset → Except GhInstallError String) (executables : List String)
    (default_name : String) (bins : Bool) (bin : Option String) :
    Except GhInstallError (List String) :=
  match (if skip_checksum then .ok () else verify_checksum release assetName actual fetch :
      Except GhInstallError Unit) with
  | .error e => .error e
  | .ok _ => install_binaries executables default_name bins bin

/-! ### Archive codec — `cargo-ghdist/src/packager.rs` and
`cargo-ghinstall/src/utils.rs`

The tar and zip containers are represented by the entries they store: a
name, a Unix mode, and the file bytes.  `tar::Builder::append_file` records
the source file's metadata (including its mode) and `tar::Archive::unpack`
restores it; the zip writer is configured with
`SimpleFileOptions::default().unix_permissions(0o755)`, so every zip entry
is stored with mode `0o755`, and `extract_zip` applies the stored
`unix_mode` to each extracted file. -/

/-- The `ArchiveFormat` enum of `cargo-ghdist/src/cli.rs`. -/
inductive ArchiveFormat where
  | Tgz
  | Zip
  deriving DecidableEq, Repr

/-- A file on disk: base name, Unix mode bits, content bytes. -/
structure SrcFile where
  name : String
  mode : Nat
  content : List Nat
  deriving DecidableEq, Repr

/-- An archive member as stored in the container. -/
structure ArchiveEntry where
  name : String
  mode : Nat
  content : List Nat
  deriving DecidableEq, Repr

/-- `create_tar_gz`: each file is appended under its base name with its own
metadata mode. -/
def create_tar_gz (files : List SrcFile) : List ArchiveEntry :=
  files.map (fun f => ⟨f.name, f.mode, f.content⟩)

/-- `create_zip`: each file is started with the fixed option
`unix_permissions(0o755)`, so the stored mode is `0o755` whatever the
source file's mode was. -/
def create_zip (files : List SrcFile) : List ArchiveEntry :=
  files.map (fun f => ⟨f.name, 0o755, f.content⟩)

/-- `create_archive` dispatching on the format. -/
def create_archive (format : ArchiveFormat) (files : List SrcFile) : List ArchiveEntry :=
  match format with
  | .Tgz => create_tar_gz files
  | .Zip => create_zip files

/-- `extract_archive` on the entries of either container: each member is
written out with its stored mode (tar unpack restores the header mode; zip
extraction applies `unix_mode` when present, and this writer always sets
it). -/
def extract_archive (entries : List ArchiveEntry) : List SrcFile :=
  entries.map (fun e => ⟨e.name, e.mode, e.content⟩)

/-- `is_executable` (Unix branch): any of the three execute bits. -/
def is_executable (f : SrcFile) : Bool :=
  f.mode &&& 0o111 != 0

/-! ### Publish orchestrator — `cargo-ghdist/src/builder.rs` and
`cargo-ghdist/src/github.rs`

The forge is an explicit state: a list of releases, each owning its
assets, plus a counter for fresh ids.  All operations act on one
(owner, repo) pair, so the owner and repo strings are dropped from the
state. -/

/-- An uploaded asset as the forge stores it. -/
structure ForgeAsset where
  id : Nat
  name : String
  deriving DecidableEq, Repr

/-- A release as the forge stores it. -/
structure ForgeRelease where
  id : Nat
  tag : String
  draft : Bool
  target_commitish : Option String
  assets : List ForgeAsset
  deriving DecidableEq, Repr

/-- The forge's release list for one repository. -/
structure ForgeState where
  releases : List ForgeRelease
  next_id : Nat
  deriving DecidableEq, Repr

/-- `GitHubClient::create_release` (cargo-ghdist): look the tag up first
and return the existing release untouched; only when the lookup misses is
a fresh release created with the given draft flag and target commitish. -/
def create_release (st : ForgeState) (tag : String) (draft : Bool)
    (target_commitish : Option String) : ForgeState × ForgeRelease :=
  match st.releases.find? (fun r => r.tag == tag) with
  | some r => (st, r)
  | none =>
    let r : ForgeRelease := ⟨st.next_id, tag, draft, target_commitish, []⟩
    (⟨st.releases ++ [r], st.next_id + 1⟩, r)

/-- `GitHubClient::asset_exists`: walk the releases, find the one with the
given id, and return the id of its first asset with the given name. -/
def asset_exists (st : ForgeState) (release_id : Nat) (asset_name : String) : Option Nat :=
  match st.releases.find? (fun r => r.id == release_id) with
  | some r => (r.assets.find? (fun a => a.name == asset_name)).map (fun a => a.id)
  | none => none

/-- `GitHubClient::delete_asset`: the forge removes the asset with that id
wherever it lives. -/
def delete_asset (st : ForgeState) (asset_id : Nat) : ForgeState :=
  ⟨st.releases.map (fun r => { r with assets := r.assets.filter (fun a => a.id != asset_id) }),
    st.next_id⟩

/-- Modelled from the spec: the forge side of `GitHubClient::upload_asset`.
The upload endpoint itself is octocrab/HTTP code outside this repository;
per the spec, an upload against an asset name that already exists on the
release is rejected by the forge, otherwise the asset is attached with a
fresh id. -/
def upload_asset (st : ForgeState) (release_id : Nat) (asset_name : String) :
    Except String ForgeState :=
  match st.releases.find? (fun r => r.id == release_id) with
  | none => .error "release not found"
  | some r =>
    if r.assets.any (fun a => a.name == asset_name) then
      .error "asset name already exists on the release"
    else
      .ok ⟨st.releases.map (fun r2 =>
            if r2.id == release_id then { r2 with assets := r2.assets ++ [⟨st.next_id, asset_name⟩] }
            else r2),
          st.next_id + 1⟩

/-- The per-asset step of `DistBuilder::run`'s upload loop: query the
release for an asset of the same name, delete any match, then upload. -/
def upload_with_replace (st : ForgeState) (release_id : Nat) (asset_name : String) :
    Except String ForgeState :=
  let st1 :=
    match asset_exists st release_id asset_name with
    | some asset_id => delete_asset st asset_id
    | none => st
  upload_asset st1 release_id asset_name

/-- Release ids are pairwise distinct (the forge assigns them). -/
def releaseIdsUnique (st : ForgeState) : Prop :=
  (st.releases.map (fun r => r.id)).Nodup

/-- Asset ids are pairwise distinct across the whole state. -/
def assetIdsUnique (st : ForgeState) : Prop :=
  ((st.releases.map (fun r => r.assets.map (fun a => a.id))).flatten).Nodup

/-- At most one asset per name on a release. -/
def assetNamesUnique (r : ForgeRelease) : Prop :=
  (r.assets.map (fun a => a.name)).Nodup

/-- `DistBuilder::should_continue_on_error`: always false (the switch is
defined but no configuration enables it). -/
def should_continue_on_error : Bool := false

/-- The per-target build loop of `DistBuilder::run`: build each target and
archive its binaries (`buildArchive` is the external build plus
`create_archive`, returning the archive path); a failure aborts the run
unless `continue_on_error`, in which case the target is skipped.  The
second component records which targets were attempted, in order. -/
def buildAll (continue_on_error : Bool) (buildArchive : String → Except GhDistError String) :
    List String → Except GhDistError (List String) × List String
  | [] => (.ok [], [])
  | t :: ts =>
    match buildArchive t with
    | .ok archive =>
      let r := buildAll continue_on_error buildArchive ts
      (r.1.map (fun rest => archive :: rest), t :: r.2)
    | .error e =>
      if continue_on_error then
        let r := buildAll continue_on_error buildArchive ts
        (r.1, t :: r.2)
      else (.error e, [t])

/-- The build phase of `DistBuilder::run`: run the per-target loop, then
fail with `BuildFailed("all targets")` when it completed with no archive. -/
def runBuildPhase (continue_on_error : Bool)
    (buildArchive : String → Except GhDistError String) (targets : List String) :
    Except GhDistError (List String) × List String :=
  let r := buildAll continue_on_error buildArchive targets
  match r.1 with
  | .error e => (.error e, r.2)
  | .ok archives =>
    (if archives.isEmpty then .error (.BuildFailed "all targets") else .ok archives, r.2)

/-! ### Claim-side definitions written from the spec's words, for the
refinement-style comparisons -/

/-- Everything except the path separator. -/
def notSlash (c : Char) : Bool :=
  c ≠ '/'

/-- Claim wording for C4: strip everything up to and including the last
path separator. -/
def stripToLastSep (s : String) : String :=
  ⟨(s.data.reverse.takeWhile notSlash).reverse⟩

/-- Claim wording for C4: a manifest line's recorded filename matches the
query when it equals it exactly or equals it after stripping everything up
to and including the last path separator. -/
def claimLineMatch (recorded queried : String) : Bool :=
  recorded == queried || stripToLastSep recorded == queried

/-- The claim-side qualification predicate for C3. -/
def assetQualifies (target : String) (bin_name : Option String) (a : OctoAsset) : Prop :=
  strContains a.name target = true ∧ is_archive a.name = true ∧
    ∀ b ∈ bin_name, strContains a.name b = true

/-- The `Not found in checksum file` error value `parse_checksum` falls
back to. -/
def notFoundInManifestErr (filename : String) : GhInstallError :=
  .ChecksumVerification filename "Unknown" "Not found in checksum file"

/-- A nonempty string of hex digits, the shape of every digest
`calculate_sha256` produces. -/
def isHexString (s : String) : Bool :=
  !s.data.isEmpty && s.data.all (fun c =>
    c.isDigit || (decide ('a' ≤ c) && decide (c ≤ 'f')) || (decide ('A' ≤ c) && decide (c ≤ 'F')))

/-- The digest yielded by one manifest line for one queried filename, used
to state the per-line characterization of `parse_checksum`. -/
def lineYield (filename line : String) : Option String :=
  match split_whitespace line with
  | c :: f :: fs =>
    let file := String.intercalate " " (f :: fs)
    if file == filename || strEndsWith file ("/" ++ filename) then some c else none
  | _ => none

/-! ## Shared helper lemmas -/

/-- The empty pattern is contained in every haystack. -/
theorem listContains_nil (hay : List Char) : listContains [] hay = true := by
  cases hay with
  | nil => rfl
  | cons c t => simp [listContains, List.isPrefixOf]

/-- A successful `find?` splits the list at the first hit. -/
theorem find?_eq_some_decomp {α : Type} (p : α → Bool) :
    ∀ (l : List α) (a : α), l.find? p = some a →
      ∃ l₁ l₂, l = l₁ ++ a :: l₂ ∧ p a = true ∧ ∀ x ∈ l₁, p x = false := by
  intro l
  induction l with
  | nil => intro a h; simp at h
  | cons x xs ih =>
    intro a h
    rw [List.find?_cons] at h
    cases hx : p x with
    | true =>
      rw [hx] at h
      cases h
      exact ⟨[], xs, rfl, hx, by simp⟩
    | false =>
      rw [hx] at h
      obtain ⟨l₁, l₂, hsplit, hpa, hrest⟩ := ih a h
      refine ⟨x :: l₁, l₂, by rw [hsplit]; rfl, hpa, ?_⟩
      intro y hy
      rcases List.mem_cons.mp hy with hxy | hmem
      · rw [hxy]; exact hx
      · exact hrest y hmem

/-! ## C1 and C6 — the retrying transport -/

/-- The attempt counter never moves past the initial attempt plus the
remaining retry budget. -/
theorem retryLoop_snd_le {T : Type} (op : Nat → Except AnyError T) (canRetry : Nat → Bool) :
    ∀ (remaining attempt : Nat),
      (retryLoop op canRetry remaining attempt).2 ≤ attempt + remaining := by
  intro remaining
  induction remaining with
  | zero =>
    intro attempt
    unfold retryLoop
    cases op attempt <;> simp
  | succ r ih =>
    intro attempt
    unfold retryLoop
    cases h : op attempt with
    | ok v => simp
    | error e =>
      by_cases hc : canRetry attempt
      · simp only [hc, if_true]
        calc (retryLoop op canRetry r (attempt + 1)).2 ≤ attempt + 1 + r := ih (attempt + 1)
          _ = attempt + (r + 1) := by omega
      · simp [hc]

/-- When every attempt in the window fails and the backoff always grants a
delay, the loop runs the whole window and returns the last attempt's own
error. -/
theorem retryLoop_allFail {T : Type} (op : Nat → Except AnyError T) :
    ∀ (remaining attempt : Nat),
      (∀ k, attempt ≤ k → k ≤ attempt + remaining → ∃ e, op k = .error e) →
      ∃ e, op (attempt + remaining) = .error e ∧
        retryLoop op (fun _ => true) remaining attempt = (.error e, attempt + remaining) := by
  intro remaining
  induction remaining with
  | zero =>
    intro attempt h
    obtain ⟨e, he⟩ := h attempt le_rfl (by omega)
    refine ⟨e, by simpa using he, ?_⟩
    unfold retryLoop
    simp [he]
  | succ r ih =>
    intro attempt h
    obtain ⟨e, he⟩ := h attempt le_rfl (by omega)
    obtain ⟨e2, he2, hr⟩ := ih (attempt + 1) (fun k hk1 hk2 => h k (by omega) (by omega))
    have harith : attempt + (r + 1) = attempt + 1 + r := by omega
    refine ⟨e2, by rw [harith]; exact he2, ?_⟩
    unfold retryLoop
    rw [he]
    simp only [if_true]
    rw [hr, harith]

/-- C6: `with_retry` makes at most `max_retries + 1` attempts; an operation
failing twice then succeeding under `max_retries = 3` returns the success
after exactly 3 attempts; an operation that always fails under
`max_retries = 2` is attempted exactly 3 times and returns the final error;
and a `max_retries = 0` policy makes exactly one attempt. -/
theorem c6_retry_attempt_counts :
    (∀ (T : Type) (config : RetryConfig) (canRetry : Nat → Bool)
        (op : Nat → Except AnyError T),
        (with_retry config canRetry op).2 ≤ config.max_retries + 1)
    ∧ (∀ (T : Type) (config : RetryConfig) (op : Nat → Except AnyError T)
        (e1 e2 : AnyError) (v : T),
        config.max_retries = 3 →
        op 1 = .error e1 → op 2 = .error e2 → op 3 = .ok v →
        with_retry config (fun _ => true) op = (.ok v, 3))
    ∧ (∀ (T : Type) (config : RetryConfig) (op : Nat → Except AnyError T),
        config.max_retries = 2 →
        (∀ k, ∃ e, op k = .error e) →
        ∃ e, op 3 = .error e ∧
          with_retry config (fun _ => true) op = (.error e, 3))
    ∧ (∀ (T : Type) (config : RetryConfig) (canRetry : Nat → Bool)
        (op : Nat → Except AnyError T),
        config.max_retries = 0 →
        (with_retry config canRetry op).2 = 1) := by
  refine ⟨?_, ?_, ?_, ?_⟩
  · intro T config canRetry op
    have h := retryLoop_snd_le op canRetry config.max_retries 1
    unfold with_retry
    omega
  · intro T config op e1 e2 v hmax h1 h2 h3
    unfold with_retry
    rw [hmax]
    unfold retryLoop
    rw [h1]
    simp only [if_true]
    unfold retryLoop
    rw [h2]
    simp only [if_true]
    unfold retryLoop
    rw [h3]
  · intro T config op hmax hfail
    unfold with_retry
    rw [hmax]
    have h := retryLoop_allFail op 2 1 (fun k _ _ => hfail k)
    simpa using h
  · intro T config canRetry op hmax
    unfold with_retry
    rw [hmax]
    unfold retryLoop
    cases op 1 <;> simp

/-- Witness for C6 at concrete operations: failing twice then succeeding
with `max_retries = 3`, always failing with `max_retries = 2`, and a
`max_retries = 0` policy. -/
theorem c6_witness :
    (with_retry ⟨3, 1, 30, some 60⟩ (fun _ => true)
        (fun k => if k ≤ 2 then (.error (.other "transient") : Except AnyError Nat) else .ok 7) =
      (.ok 7, 3))
    ∧ (∃ e, (fun _ => (.error (.other "persistent") : Except AnyError Nat)) 3 = .error e ∧
        with_retry ⟨2, 1, 30, some 60⟩ (fun _ => true)
          (fun _ => (.error (.other "persistent") : Except AnyError Nat)) = (.error e, 3))
    ∧ (with_retry ⟨0, 0, 0, some 0⟩ (fun _ => true)
        (fun _ => (.error (.other "down") : Except AnyError Nat))).2 = 1 := by
  refine ⟨?_, ?_, ?_⟩
  · exact c6_retry_attempt_counts.2.1 Nat ⟨3, 1, 30, some 60⟩ _ (.other "transient")
      (.other "transient") 7 rfl rfl rfl rfl
  · exact c6_retry_attempt_counts.2.2.1 Nat ⟨2, 1, 30, some 60⟩ _ rfl
      (fun k => ⟨.other "persistent", rfl⟩)
  · exact c6_retry_attempt_counts.2.2.2 Nat ⟨0, 0, 0, some 0⟩ _ _ rfl

/-- C1 counterexample: an HTTP 404 failure is classified terminal by
`is_retryable_error`, yet `with_retry` goes on to attempt the operation two
more times under `max_retries = 2` — the terminal failure does not
propagate immediately and no typed error carrying the operation name is
produced. -/
theorem c1_counterexample :
    is_retryable_error (.reqwest ⟨false, false, some 404⟩) = false ∧
    (with_retry ⟨2, 1, 30, some 60⟩ (fun _ => true)
        (fun _ => (.error (.reqwest ⟨false, false, some 404⟩) : Except AnyError Nat))).2 = 3 := by
  decide

/-- C1 amended: `with_retry` classifies failures by attempt count alone —
any failure is retried while attempts remain, whatever its kind, and the
failure of attempt `max_retries + 1` propagates as the operation's own last
error, unwrapped.  The claimed retryable/terminal taxonomy (5xx and 429 and
missing-status retryable, other 4xx terminal, connection-shaped IO errors
retryable, everything else terminal) lives in the separate predicate
`is_retryable_error`, which `with_retry` never consults. -/
theorem c1_amended_retry_ignores_classification :
    (∀ (T : Type) (config : RetryConfig) (op : Nat → Except AnyError T),
        (∀ k, 1 ≤ k → k ≤ config.max_retries + 1 → ∃ e, op k = .error e) →
        ∃ e, op (config.max_retries + 1) = .error e ∧
          with_retry config (fun _ => true) op = (.error e, config.max_retries + 1))
    ∧ (∀ s, 400 ≤ s → s < 500 → s ≠ 429 →
        is_retryable_error (.reqwest ⟨false, false, some s⟩) = false)
    ∧ (∀ s, 500 ≤ s → s < 600 →
        is_retryable_error (.reqwest ⟨false, false, some s⟩) = true)
    ∧ is_retryable_error (.reqwest ⟨false, false, some 429⟩) = true
    ∧ is_retryable_error (.reqwest ⟨false, false, none⟩) = true
    ∧ (∀ msg, is_retryable_error (.other msg) = false)
    ∧ is_retryable_error (.io .connectionReset) = true := by
  refine ⟨?_, ?_, ?_, by decide, by decide, fun msg => rfl, by decide⟩
  · intro T config op h
    have := retryLoop_allFail op config.max_retries 1
      (fun k hk1 hk2 => h k hk1 (by omega))
    unfold with_retry
    simpa [Nat.add_comm] using this
  · intro s h1 h2 h3
    simp only [is_retryable_error, Bool.false_or]
    simp
    omega
  · intro s h1 h2
    simp only [is_retryable_error, Bool.false_or]
    simp
    omega

/-- Witness for the amended C1: the always-404 operation is retried for the
whole budget even though 404 is classified terminal. -/
theorem c1_amended_witness :
    (∃ e, (fun _ => (.error (.reqwest ⟨false, false, some 404⟩) : Except AnyError Nat)) 3 =
          .error e ∧
        with_retry ⟨2, 1, 30, some 60⟩ (fun _ => true)
          (fun _ => (.error (.reqwest ⟨false, false, some 404⟩) : Except AnyError Nat)) =
          (.error e, 3))
    ∧ is_retryable_error (.reqwest ⟨false, false, some 404⟩) = false := by
  constructor
  · exact c1_amended_retry_ignores_classification.1 Nat ⟨2, 1, 30, some 60⟩ _
      (fun k h1 h2 => ⟨.reqwest ⟨false, false, some 404⟩, rfl⟩)
  · exact c1_amended_retry_ignores_classification.2.1 404 (by omega) (by omega) (by omega)

/-! ## C10 — `get_release` collapses every failure into `ReleaseNotFound` -/

/-- C10: whenever `get_release` fails after retry exhaustion, whatever the
underlying causes, the error is `ReleaseNotFound` carrying the requested
tag (the literal `"latest"` when none was given), the owner and the repo;
two failing runs with different causes return equal errors. -/
theorem c10_release_not_found_collapses_causes :
    ∀ (owner repo : String) (tag : Option String) (config : RetryConfig)
      (canRetry : Nat → Bool) (fetch1 fetch2 : Nat → Except AnyError Release)
      (e1 e2 : GhInstallError),
      get_release owner repo tag config canRetry fetch1 = .error e1 →
      get_release owner repo tag config canRetry fetch2 = .error e2 →
      e1 = .ReleaseNotFound (tag.getD "latest") owner repo ∧ e1 = e2 := by
  intro owner repo tag config canRetry fetch1 fetch2 e1 e2 h1 h2
  unfold get_release at h1 h2
  cases hw1 : (with_retry config canRetry fetch1).1 <;> rw [hw1] at h1 <;> simp at h1
  cases hw2 : (with_retry config canRetry fetch2).1 <;> rw [hw2] at h2 <;> simp at h2
  subst h1
  subst h2
  exact ⟨rfl, rfl⟩

/-- Witness for C10: a 404-shaped failure and a timeout-shaped failure both
surface as the very same `ReleaseNotFound "latest" "o" "r"`. -/
theorem c10_witness :
    ∃ e1 e2 : GhInstallError,
      get_release "o" "r" none ⟨0, 1, 30, some 60⟩ (fun _ => true)
          (fun _ => .error (.reqwest ⟨false, false, some 404⟩)) = .error e1 ∧
      get_release "o" "r" none ⟨0, 1, 30, some 60⟩ (fun _ => true)
          (fun _ => .error (.io .timedOut)) = .error e2 ∧
      e1 = .ReleaseNotFound "latest" "o" "r" ∧ e1 = e2 := by
  have h1 : get_release "o" "r" none ⟨0, 1, 30, some 60⟩ (fun _ => true)
      (fun _ => .error (.reqwest ⟨false, false, some 404⟩)) =
        .error (.ReleaseNotFound "latest" "o" "r") := rfl
  have h2 : get_release "o" "r" none ⟨0, 1, 30, some 60⟩ (fun _ => true)
      (fun _ => .error (.io .timedOut)) = .error (.ReleaseNotFound "latest" "o" "r") := rfl
  obtain ⟨ha, hb⟩ := c10_release_not_found_collapses_causes "o" "r" none ⟨0, 1, 30, some 60⟩
    (fun _ => true) _ _ _ _ h1 h2
  exact ⟨_, _, h1, h2, ha, hb⟩

/-! ## C3 — `find_asset` is a first-match scan -/

/-- The boolean filter used by `find_asset` agrees with the claim-side
qualification predicate (an empty binary name is contained in every
string, so `Some ""` and `None` coincide). -/
theorem qualifies_bool_iff (target : String) (bin_name : Option String) (a : OctoAsset) :
    (strContains a.name target && is_archive a.name &&
      ((bin_name.getD "").data.isEmpty || strContains a.name (bin_name.getD ""))) = true
    ↔ assetQualifies target bin_name a := by
  cases bin_name with
  | none =>
    simp [assetQualifies]
  | some b =>
    have hcont : b.data = [] → strContains a.name b = true := by
      intro h
      unfold strContains
      rw [h]
      exact listContains_nil _
    by_cases hbe : b.data.isEmpty
    · have hb := hcont (List.isEmpty_iff.mp hbe)
      simp [assetQualifies, hbe, hb, and_assoc]
    · simp [assetQualifies, hbe, and_assoc]

/-- C3: `find_asset` returns `none` exactly when no asset in the release
qualifies (name contains the target triple, name has a recognized archive
suffix, and, when a binary name is given, name contains it); a returned
asset is the first qualifying one in the release's listed order. -/
theorem c3_find_asset_first_match :
    ∀ (release : Release) (target : String) (bin_name : Option String),
      (find_asset release target bin_name = none ↔
        ∀ a ∈ release.assets, ¬assetQualifies target bin_name a)
      ∧ (∀ asset, find_asset release target bin_name = some asset →
          ∃ l₁ a l₂, release.assets = l₁ ++ a :: l₂ ∧ assetQualifies target bin_name a ∧
            asset = ⟨a.name, a.browser_download_url, a.size⟩ ∧
            ∀ x ∈ l₁, ¬assetQualifies target bin_name x) := by
  intro release target bin_name
  constructor
  · constructor
    · intro h a ha hq
      unfold find_asset at h
      rw [Option.map_eq_none', List.find?_eq_none] at h
      exact h a ha ((qualifies_bool_iff target bin_name a).mpr hq)
    · intro h
      unfold find_asset
      rw [Option.map_eq_none', List.find?_eq_none]
      intro a ha hp
      exact h a ha ((qualifies_bool_iff target bin_name a).mp hp)
  · intro asset h
    unfold find_asset at h
    cases hf : release.assets.find? (fun a =>
        strContains a.name target && is_archive a.name &&
          ((bin_name.getD "").data.isEmpty || strContains a.name (bin_name.getD ""))) with
    | none => rw [hf] at h; simp at h
    | some a =>
      rw [hf] at h
      simp only [Option.map_some', Option.some.injEq] at h
      obtain ⟨l₁, l₂, hsplit, hpa, hrest⟩ := find?_eq_some_decomp _ _ _ hf
      refine ⟨l₁, a, l₂, hsplit, (qualifies_bool_iff target bin_name a).mp hpa, h.symm, ?_⟩
      intro x hx hq
      have := hrest x hx
      rw [(qualifies_bool_iff target bin_name x).mpr hq] at this
      simp at this

/-- Witness for C3 on a concrete release: the first two assets fail the
filter (wrong triple, not an archive) and the third is returned. -/
theorem c3_witness :
    ∃ l₁ a l₂,
      [(⟨"tool-src.zip", "u1", 1, 1⟩ : OctoAsset),
        ⟨"tool-x86_64-unknown-linux-gnu.txt", "u2", 1, 2⟩,
        ⟨"tool-x86_64-unknown-linux-gnu.tar.gz", "u3", 1, 3⟩] = l₁ ++ a :: l₂ ∧
      assetQualifies "x86_64-unknown-linux-gnu" (some "tool") a ∧
      (⟨"tool-x86_64-unknown-linux-gnu.tar.gz", "u3", 1⟩ : ReleaseAsset) =
        ⟨a.name, a.browser_download_url, a.size⟩ ∧
      ∀ x ∈ l₁, ¬assetQualifies "x86_64-unknown-linux-gnu" (some "tool") x :=
  (c3_find_asset_first_match
      ⟨1, "v1",
        [⟨"tool-src.zip", "u1", 1, 1⟩,
          ⟨"tool-x86_64-unknown-linux-gnu.txt", "u2", 1, 2⟩,
          ⟨"tool-x86_64-unknown-linux-gnu.tar.gz", "u3", 1, 3⟩]⟩
      "x86_64-unknown-linux-gnu" (some "tool")).2
    ⟨"tool-x86_64-unknown-linux-gnu.tar.gz", "u3", 1⟩ rfl

/-! ## C4 — checksum-manifest line matching -/

/-- One unrolling of the `parse_checksum` loop, phrased with `lineYield`. -/
theorem parseChecksumLines_cons (filename line : String) (rest : List String) :
    parseChecksumLines filename (line :: rest) =
      match lineYield filename line with
      | some c => .ok c
      | none => parseChecksumLines filename rest := by
  simp only [parseChecksumLines, lineYield]
  cases hs : split_whitespace line with
  | nil => rfl
  | cons c t =>
    cases t with
    | nil => rfl
    | cons f fs =>
      by_cases hcond : (String.intercalate " " (f :: fs) == filename ||
          strEndsWith (String.intercalate " " (f :: fs)) ("/" ++ filename)) = true
      · simp [hcond]
      · simp [hcond]

/-- `parse_checksum` succeeds exactly on the first line that yields a
digest for the queried filename. -/
theorem parseChecksumLines_ok_iff (filename c : String) :
    ∀ lines : List String,
      parseChecksumLines filename lines = .ok c ↔
        ∃ l₁ line l₂, lines = l₁ ++ line :: l₂ ∧ lineYield filename line = some c ∧
          ∀ l ∈ l₁, lineYield filename l = none := by
  intro lines
  induction lines with
  | nil =>
    simp [parseChecksumLines]
  | cons line rest ih =>
    rw [parseChecksumLines_cons]
    cases hy : lineYield filename line with
    | some d =>
      simp only [Except.ok.injEq]
      constructor
      · intro h
        exact ⟨[], line, rest, rfl, by rw [hy, h], by simp⟩
      · rintro ⟨l₁, line2, l₂, hsplit, hyield, hnone⟩
        cases l₁ with
        | nil =>
          simp at hsplit
          obtain ⟨h1, _⟩ := hsplit
          rw [h1] at hy
          rw [hy] at hyield
          exact (Option.some.injEq _ _).mp hyield
        | cons x xs =>
          simp at hsplit
          obtain ⟨h1, _⟩ := hsplit
          have := hnone x (by simp)
          rw [← h1] at this
          rw [hy] at this
          cases this
    | none =>
      rw [ih]
      constructor
      · rintro ⟨l₁, line2, l₂, hsplit, hyield, hnone⟩
        refine ⟨line :: l₁, line2, l₂, by rw [hsplit]; rfl, hyield, ?_⟩
        intro l hl
        rcases List.mem_cons.mp hl with h | h
        · rw [h]; exact hy
        · exact hnone l h
      · rintro ⟨l₁, line2, l₂, hsplit, hyield, hnone⟩
        cases l₁ with
        | nil =>
          simp at hsplit
          obtain ⟨h1, _⟩ := hsplit
          rw [← h1, hy] at hyield
          cases hyield
        | cons x xs =>
          simp at hsplit
          obtain ⟨h1, h2⟩ := hsplit
          exact ⟨xs, line2, l₂, h2, hyield, fun l hl => hnone l (by simp [hl])⟩

/-- `parse_checksum` has a single error value: the not-found fallback. -/
theorem parseChecksumLines_error (filename : String) :
    ∀ (lines : List String) (e : GhInstallError),
      parseChecksumLines filename lines = .error e → e = notFoundInManifestErr filename := by
  intro lines
  induction lines with
  | nil =>
    intro e h
    unfold parseChecksumLines at h
    simp [notFoundInManifestErr] at h ⊢
    exact h.symm
  | cons line rest ih =>
    intro e h
    rw [parseChecksumLines_cons] at h
    cases hy : lineYield filename line with
    | some d => rw [hy] at h; cases h
    | none => rw [hy] at h; exact ih e h

/-- Containment of a single character is list membership. -/
theorem listContains_singleton (ch : Char) :
    ∀ l : List Char, listContains [ch] l = true ↔ ch ∈ l := by
  intro l
  induction l with
  | nil => simp [listContains, List.isPrefixOf]
  | cons x t ih => simp [listContains, List.isPrefixOf, ih, List.mem_cons]

/-- `takeWhile` swallows a whole satisfying block up to the first failing
element. -/
theorem takeWhile_append_all {p : Char → Bool} :
    ∀ (xs ys : List Char) (y : Char), (∀ x ∈ xs, p x = true) → p y = false →
      (xs ++ y :: ys).takeWhile p = xs := by
  intro xs
  induction xs with
  | nil =>
    intro ys y _ hy
    simp [List.takeWhile_cons, hy]
  | cons x xt ih =>
    intro ys y h hy
    have hx : p x = true := h x (by simp)
    simp [List.takeWhile_cons, hx, ih ys y (fun z hz => h z (by simp [hz])) hy]

/-- The head surviving `dropWhile` fails the predicate. -/
theorem dropWhile_head_false {p : Char → Bool} :
    ∀ (l : List Char) (d : Char) (ds : List Char), l.dropWhile p = d :: ds → p d = false := by
  intro l
  induction l with
  | nil => intro d ds h; simp at h
  | cons x xt ih =>
    intro d ds h
    rw [List.dropWhile_cons] at h
    by_cases hx : p x = true
    · rw [if_pos hx] at h
      exact ih d ds h
    · rw [if_neg hx] at h
      cases h
      simpa using hx

/-- The code's filename test (exact match or ends with slash-plus-query)
coincides with the claim's strip-to-last-separator wording exactly when the
queried name contains no separator itself. -/
theorem endsWith_slash_iff_strip (recorded queried : String)
    (hq : strContains queried "/" = false) :
    (recorded = queried ∨ strEndsWith recorded ("/" ++ queried) = true) ↔
      claimLineMatch recorded queried = true := by
  obtain ⟨l⟩ := recorded
  obtain ⟨q⟩ := queried
  have hq' : '/' ∉ q := by
    intro hmem
    rw [show strContains ⟨q⟩ "/" = listContains ['/'] q from rfl,
      (listContains_singleton '/' q).mpr hmem] at hq
    cases hq
  have hdata : ("/" ++ (⟨q⟩ : String)).data = '/' :: q := rfl
  constructor
  · rintro (heq | hends)
    · simp [claimLineMatch, heq]
    · unfold strEndsWith at hends
      rw [hdata] at hends
      obtain ⟨pre, hpre⟩ := List.isSuffixOf_iff_suffix.mp hends
      have hpre2 : pre ++ '/' :: q = l := hpre
      have hrev : l.reverse = q.reverse ++ '/' :: pre.reverse := by
        rw [← hpre2]
        simp
      have hstrip : stripToLastSep ⟨l⟩ = ⟨q⟩ := by
        unfold stripToLastSep
        rw [show (String.mk l).data = l from rfl, hrev,
          takeWhile_append_all q.reverse pre.reverse '/'
            (fun x hx => by
              simp only [notSlash, decide_eq_true_eq]
              intro hx'
              exact hq' (by rw [← hx']; exact List.mem_reverse.mp hx))
            (by simp [notSlash])]
        simp
      simp [claimLineMatch, hstrip]
  · intro hclaim
    unfold claimLineMatch at hclaim
    simp only [Bool.or_eq_true] at hclaim
    rcases hclaim with h | h
    · left
      exact beq_iff_eq.mp h
    · have hstrip : (l.reverse.takeWhile notSlash).reverse = q := by
        have := beq_iff_eq.mp h
        unfold stripToLastSep at this
        exact congrArg String.data this
      have htw : l.reverse.takeWhile notSlash = q.reverse := by
        rw [← List.reverse_reverse (l.reverse.takeWhile notSlash), hstrip]
      have hsplit2 := List.takeWhile_append_dropWhile (p := notSlash) (l := l.reverse)
      cases hd : l.reverse.dropWhile notSlash with
      | nil =>
        rw [hd, List.append_nil, htw] at hsplit2
        left
        have : l = q := by
          rw [← List.reverse_reverse l, ← hsplit2]
          simp
        rw [this]
      | cons d ds =>
        have hpd : notSlash d = false := dropWhile_head_false _ _ _ hd
        have hd' : d = '/' := by simpa [notSlash] using hpd
        rw [hd, htw, hd'] at hsplit2
        have hl : l = ds.reverse ++ '/' :: q := by
          have h2 := congrArg List.reverse hsplit2
          simpa using h2.symm
        right
        unfold strEndsWith
        rw [hdata, List.isSuffixOf_iff_suffix]
        exact ⟨ds.reverse, by rw [hl]⟩

/-- C4 counterexample: when the queried name itself contains a separator,
the code accepts a manifest line that the claim's strip-to-last-separator
wording rejects — the line `abc123 a/dist/file.tar.gz` yields the digest
for the query `dist/file.tar.gz`. -/
theorem c4_counterexample :
    parse_checksum "abc123 a/dist/file.tar.gz" "dist/file.tar.gz" = .ok "abc123" ∧
    claimLineMatch "a/dist/file.tar.gz" "dist/file.tar.gz" = false :=
  ⟨rfl, by decide⟩

/-- C4 amended: a manifest line yields its first whitespace-separated field
as the digest iff the remaining fields, joined by single spaces, equal the
queried name or end with a slash followed by the queried name (for queried
names without a separator this is exactly the claim's strip-to-last-
separator wording); `parse_checksum` returns the first such line's digest;
any whitespace (spaces or a tab) separates digest and filename; and the
final digest comparison lowercases both sides. -/
theorem c4_amended_checksum_line_match :
    (∀ filename line c, lineYield filename line = some c ↔
        ∃ f fs, split_whitespace line = c :: f :: fs ∧
          (String.intercalate " " (f :: fs) = filename ∨
            strEndsWith (String.intercalate " " (f :: fs)) ("/" ++ filename) = true))
    ∧ (∀ content filename c, parse_checksum content filename = .ok c ↔
        ∃ l₁ line l₂, rustLines content = l₁ ++ line :: l₂ ∧
          lineYield filename line = some c ∧ ∀ l ∈ l₁, lineYield filename l = none)
    ∧ (∀ content filename expected actual,
        parse_checksum content filename = .ok expected →
        (verify_digest content filename actual = .ok () ↔
          strToLower actual = strToLower expected))
    ∧ (∀ recorded queried, strContains queried "/" = false →
        ((recorded = queried ∨ strEndsWith recorded ("/" ++ queried) = true) ↔
          claimLineMatch recorded queried = true)) := by
  refine ⟨?_, ?_, ?_, endsWith_slash_iff_strip⟩
  · intro filename line c
    cases hs : split_whitespace line with
    | nil =>
      unfold lineYield
      rw [hs]
      simp
    | cons c0 t =>
      cases t with
      | nil =>
        unfold lineYield
        rw [hs]
        simp
      | cons f fs =>
        have hyl : lineYield filename line =
            if (String.intercalate " " (f :: fs) == filename ||
                strEndsWith (String.intercalate " " (f :: fs)) ("/" ++ filename)) = true
            then some c0 else none := by
          unfold lineYield
          rw [hs]
        rw [hyl]
        by_cases hcond : (String.intercalate " " (f :: fs) == filename ||
            strEndsWith (String.intercalate " " (f :: fs)) ("/" ++ filename)) = true
        · rw [if_pos hcond]
          simp only [Option.some.injEq]
          constructor
          · intro h
            exact ⟨f, fs, by rw [h], by simpa using hcond⟩
          · rintro ⟨f2, fs2, heq, _⟩
            injection heq with h1 _
        · rw [if_neg hcond]
          constructor
          · intro h
            cases h
          · rintro ⟨f2, fs2, heq, hor⟩
            injection heq with h1 hrest
            injection hrest with h2 h3
            subst h2
            subst h3
            exact absurd (by rcases hor with h | h <;> simp [h]) hcond
  · intro content filename c
    exact parseChecksumLines_ok_iff filename c (rustLines content)
  · intro content filename expected actual hp
    unfold verify_digest
    rw [hp]
    by_cases heq : strToLower actual = strToLower expected
    · simp [heq]
    · simp [heq]

/-- Witness for the amended C4: a mixed-case digest verifies
case-insensitively, a tab-separated line with a path prefix matches, and
for a separator-free query the code's test agrees with the claim's strip
wording. -/
theorem c4_amended_witness :
    (verify_digest "ABC123  f.tar.gz" "f.tar.gz" "abc123" = .ok ()) ∧
    (parse_checksum "jkl012\tdist/f.tar.gz" "f.tar.gz" = .ok "jkl012") ∧
    ((("r/f" : String) = "f" ∨ strEndsWith "r/f" ("/" ++ "f") = true) ↔
      claimLineMatch "r/f" "f" = true) := by
  refine ⟨?_, rfl, c4_amended_checksum_line_match.2.2.2 "r/f" "f" (by decide)⟩
  have hp : parse_checksum "ABC123  f.tar.gz" "f.tar.gz" = .ok "ABC123" := rfl
  exact (c4_amended_checksum_line_match.2.2.1 _ _ _ "abc123" hp).mpr (by decide)

/-! ## C8 — the two checksum failure modes share one error constructor -/

/-- C8 counterexample: the not-found fallback and a genuine mismatch can
produce literally equal errors.  The manifest `Unknown f` records the
digest `Unknown` for `f`; verifying with computed digest
`Not found in checksum file` is a mismatch whose report coincides with the
not-found report of the empty manifest. -/
theorem c8_counterexample :
    parse_checksum "Unknown f" "f" = .ok "Unknown" ∧
    verify_digest "Unknown f" "f" "Not found in checksum file" =
      .error (.ChecksumVerification "f" "Unknown" "Not found in checksum file") ∧
    parse_checksum "" "f" =
      .error (.ChecksumVerification "f" "Unknown" "Not found in checksum file") ∧
    verify_digest "" "f" "deadbeef" =
      .error (.ChecksumVerification "f" "Unknown" "Not found in checksum file") :=
  ⟨rfl, rfl, rfl, rfl⟩

/-- C8 amended: verification has three outcomes — success, the fixed
not-found report (`expected = Unknown`, `actual = Not found in checksum
file`), and a mismatch report carrying the recorded and computed digests —
but both failures use the single `ChecksumVerification` constructor; they
are distinguishable whenever the computed digest is a nonempty hex string
(as every digest the program computes is), not in general. -/
theorem c8_amended_error_distinguishability :
    (∀ content filename actual,
        verify_digest content filename actual = .ok () ∨
        verify_digest content filename actual = .error (notFoundInManifestErr filename) ∨
        ∃ expected, parse_checksum content filename = .ok expected ∧
          strToLower actual ≠ strToLower expected ∧
          verify_digest content filename actual =
            .error (.ChecksumVerification filename expected actual))
    ∧ (∀ filename expected actual, isHexString actual = true →
        GhInstallError.ChecksumVerification filename expected actual ≠
          notFoundInManifestErr filename) := by
  constructor
  · intro content filename actual
    unfold verify_digest
    cases hp : parse_checksum content filename with
    | error e =>
      right; left
      rw [parseChecksumLines_error filename (rustLines content) e hp]
    | ok expected =>
      by_cases heq : strToLower actual = strToLower expected
      · left
        simp [heq]
      · right; right
        exact ⟨expected, rfl, heq, by simp [heq]⟩
  · intro filename expected actual hhex heq
    unfold notFoundInManifestErr at heq
    injection heq with h1 h2 h3
    subst h3
    exact absurd hhex (by decide)

/-- Witness for the amended C8 at a concrete hex digest. -/
theorem c8_amended_witness :
    GhInstallError.ChecksumVerification "f.tar.gz" "aa" "0abc" ≠
      notFoundInManifestErr "f.tar.gz" :=
  c8_amended_error_distinguishability.2 "f.tar.gz" "aa" "0abc" (by decide)

/-! ## C5 — locating the checksum manifest -/

/-- The boolean filter of `findChecksumAsset` is membership in the three
conventional names. -/
theorem checksumName_bool_iff (a : OctoAsset) :
    (a.name == "SHA256SUMS" || a.name == "checksums.txt" || a.name == "sha256sums.txt") = true
      ↔ a.name ∈ checksumAssetNames := by
  simp [checksumAssetNames, or_assoc]

/-- C5 counterexample: the code takes the first manifest asset in the
release's listed order, not the claimed name-priority order.  With
`checksums.txt` listed before `SHA256SUMS`, the code reads `checksums.txt`
and fails the verification even though the `SHA256SUMS` content matches the
computed digest. -/
theorem c5_counterexample :
    findChecksumAsset [⟨"checksums.txt", "u1", 9, 1⟩, ⟨"SHA256SUMS", "u2", 9, 2⟩] =
      some ⟨"checksums.txt", "u1", 9, 1⟩ ∧
    findChecksumAssetSpec [⟨"checksums.txt", "u1", 9, 1⟩, ⟨"SHA256SUMS", "u2", 9, 2⟩] =
      some ⟨"SHA256SUMS", "u2", 9, 2⟩ ∧
    verify_checksum ⟨7, "v1", [⟨"checksums.txt", "u1", 9, 1⟩, ⟨"SHA256SUMS", "u2", 9, 2⟩]⟩
        "f.tar.gz" "bbbb"
        (fun a => if a.name == "checksums.txt" then .ok "aaaa  f.tar.gz"
          else .ok "bbbb  f.tar.gz") =
      .error (.ChecksumVerification "f.tar.gz" "aaaa" "bbbb") :=
  ⟨rfl, rfl, rfl⟩

/-- C5 amended: the manifest is the first asset in the release's listed
order whose name is any of `SHA256SUMS`, `checksums.txt`, `sha256sums.txt`
(no priority among the names); when no asset has any of these names and
checksum verification is enabled, the run fails with the distinct
`ChecksumFileNotFound` — never a pass — and nothing is installed. -/
theorem c5_amended_checksum_lookup :
    (∀ assets : List OctoAsset,
        (findChecksumAsset assets = none ↔ ∀ a ∈ assets, a.name ∉ checksumAssetNames)
        ∧ ∀ ca, findChecksumAsset assets = some ca →
            ca.name ∈ checksumAssetNames ∧
            ∃ l₁ l₂, assets = l₁ ++ ca :: l₂ ∧ ∀ a ∈ l₁, a.name ∉ checksumAssetNames)
    ∧ (∀ (release : Release) (assetName actual : String)
        (fetch : OctoAsset → Except GhInstallError String) (executables : List String)
        (default_name : String) (bins : Bool) (bin : Option String),
        (∀ a ∈ release.assets, a.name ∉ checksumAssetNames) →
        installPhase false release assetName actual fetch executables default_name bins bin =
          .error .ChecksumFileNotFound) := by
  constructor
  · intro assets
    constructor
    · unfold findChecksumAsset
      rw [List.find?_eq_none]
      constructor
      · intro h a ha hmem
        exact h a ha ((checksumName_bool_iff a).mpr hmem)
      · intro h a ha hb
        exact h a ha ((checksumName_bool_iff a).mp hb)
    · intro ca hf
      obtain ⟨l₁, l₂, hsplit, hpa, hrest⟩ := find?_eq_some_decomp _ _ _ hf
      refine ⟨(checksumName_bool_iff ca).mp hpa, l₁, l₂, hsplit, ?_⟩
      intro a ha hmem
      have := hrest a ha
      rw [(checksumName_bool_iff a).mpr hmem] at this
      simp at this
  · intro release assetName actual fetch executables default_name bins bin hnone
    unfold installPhase verify_checksum
    have hf : findChecksumAsset release.assets = none := by
      unfold findChecksumAsset
      rw [List.find?_eq_none]
      intro a ha hb
      exact hnone a ha ((checksumName_bool_iff a).mp hb)
    rw [hf]
    rfl

/-- Witness for the amended C5: a release with a single binary asset and no
manifest asset aborts with `ChecksumFileNotFound` and installs nothing. -/
theorem c5_amended_witness :
    installPhase false ⟨3, "v1", [⟨"tool-x86_64.tar.gz", "u", 9, 1⟩]⟩ "tool-x86_64.tar.gz"
        "aa" (fun _ => .ok "") ["tool"] "tool" false none =
      .error .ChecksumFileNotFound :=
  c5_amended_checksum_lookup.2 ⟨3, "v1", [⟨"tool-x86_64.tar.gz", "u", 9, 1⟩]⟩
    "tool-x86_64.tar.gz" "aa" (fun _ => .ok "") ["tool"] "tool" false none (by decide)

/-! ## C9 — per-target failure policy of the publish run -/

/-- In strict mode the build loop stops at the first failing target: the
prior targets succeed, the failing target's own error is returned, and the
targets after it are never attempted. -/
theorem buildAll_abort (buildArchive : String → Except GhDistError String) :
    ∀ (ts1 : List String) (t : String) (ts2 : List String) (e : GhDistError),
      (∀ t2 ∈ ts1, ∃ a, buildArchive t2 = .ok a) → buildArchive t = .error e →
      buildAll false buildArchive (ts1 ++ t :: ts2) = (.error e, ts1 ++ [t]) := by
  intro ts1
  induction ts1 with
  | nil =>
    intro t ts2 e _ hf
    simp [buildAll, hf]
  | cons x xs ih =>
    intro t ts2 e h hf
    obtain ⟨a, ha⟩ := h x (by simp)
    have hr := ih t ts2 e (fun z hz => h z (by simp [hz])) hf
    show buildAll false buildArchive (x :: (xs ++ t :: ts2)) = _
    simp [buildAll, ha, hr, Except.map]

/-- C9 counterexample: with the default strict configuration and a single
target whose build fails, the run fails — but with `BuildFailed("t1")`, not
`BuildFailed("all targets")`, although zero targets produced an archive. -/
theorem c9_counterexample :
    (runBuildPhase should_continue_on_error (fun t => .error (.BuildFailed t)) ["t1"]).1 =
      .error (.BuildFailed "t1") ∧
    (buildAll should_continue_on_error (fun t => .error (.BuildFailed t)) ["t1"]).1 =
      .error (.BuildFailed "t1") ∧
    GhDistError.BuildFailed "t1" ≠ GhDistError.BuildFailed "all targets" :=
  ⟨rfl, rfl, by decide⟩

/-- C9 amended: the default configuration is strict
(`should_continue_on_error = false`) and aborts at the first failing target
with that target's `BuildFailed` error, never attempting the remaining
targets; and in every configuration, a per-target loop that completes with
zero archives makes the run fail with `BuildFailed("all targets")`. -/
theorem c9_amended_build_failure_policy :
    (∀ (buildArchive : String → Except GhDistError String) (ts1 : List String)
        (t : String) (ts2 : List String) (e : GhDistError),
        (∀ t2 ∈ ts1, ∃ a, buildArchive t2 = .ok a) → buildArchive t = .error e →
        runBuildPhase should_continue_on_error buildArchive (ts1 ++ t :: ts2) =
          (.error e, ts1 ++ [t]))
    ∧ (∀ (continue_on_error : Bool) (buildArchive : String → Except GhDistError String)
        (targets attempted : List String),
        buildAll continue_on_error buildArchive targets = (.ok [], attempted) →
        (runBuildPhase continue_on_error buildArchive targets).1 =
          .error (.BuildFailed "all targets")) := by
  constructor
  · intro buildArchive ts1 t ts2 e h hf
    unfold runBuildPhase should_continue_on_error
    rw [buildAll_abort buildArchive ts1 t ts2 e h hf]
  · intro continue_on_error buildArchive targets attempted h
    unfold runBuildPhase
    rw [h]
    rfl

/-- Witness for the amended C9: a strict run over three targets whose
second build fails stops right there, and a continue-on-error run whose
builds all fail ends with `BuildFailed("all targets")`. -/
theorem c9_amended_witness :
    runBuildPhase should_continue_on_error
        (fun t => if t = "t1" then .ok "a1" else .error (.BuildFailed t))
        ["t1", "t2", "t3"] = (.error (.BuildFailed "t2"), ["t1", "t2"]) ∧
    (runBuildPhase true (fun t => .error (.BuildFailed t)) ["t1", "t2"]).1 =
      .error (.BuildFailed "all targets") := by
  constructor
  · exact c9_amended_build_failure_policy.1
      (fun t => if t = "t1" then .ok "a1" else .error (.BuildFailed t)) ["t1"] "t2" ["t3"]
      (.BuildFailed "t2")
      (by
        intro t2 ht
        rcases List.mem_singleton.mp ht with rfl
        exact ⟨"a1", rfl⟩)
      rfl
  · exact c9_amended_build_failure_policy.2 true (fun t => .error (.BuildFailed t))
      ["t1", "t2"] ["t1", "t2"] rfl

/-! ## C7 — archive round-trip -/

/-- C7 counterexample: zip members are stored with the fixed permission
`0o755`, so a non-executable input comes back executable from the zip
round-trip — the executable-bit status is not preserved. -/
theorem c7_counterexample :
    extract_archive (create_archive .Zip [⟨"tool", 0o644, [1, 2]⟩]) =
      [⟨"tool", 0o755, [1, 2]⟩] ∧
    is_executable ⟨"tool", 0o644, [1, 2]⟩ = false ∧
    is_executable ⟨"tool", 0o755, [1, 2]⟩ = true :=
  ⟨rfl, by decide, by decide⟩

/-- C7 amended: for every non-empty file set, the tar+gzip round-trip
reproduces the files exactly — names, contents, and mode bits, hence the
executable bit; the zip round-trip reproduces names and contents but
stores every member with mode `0o755`, so every extracted member is
executable and the executable-bit status is preserved only for inputs that
were executable. -/
theorem c7_amended_roundtrip :
    ∀ files : List SrcFile, files ≠ [] →
      extract_archive (create_archive .Tgz files) = files ∧
      (extract_archive (create_archive .Zip files)).map (fun f => f.name) =
        files.map (fun f => f.name) ∧
      (extract_archive (create_archive .Zip files)).map (fun f => f.content) =
        files.map (fun f => f.content) ∧
      ∀ g ∈ extract_archive (create_archive .Zip files), is_executable g = true := by
  intro files _
  have hz : extract_archive (create_archive .Zip files) =
      files.map (fun f => ⟨f.name, 0o755, f.content⟩) := by
    show (files.map _).map _ = _
    rw [List.map_map]
    rfl
  refine ⟨?_, ?_, ?_, ?_⟩
  · show (files.map _).map _ = _
    rw [List.map_map]
    exact List.map_id files
  · rw [hz, List.map_map]
    rfl
  · rw [hz, List.map_map]
    rfl
  · intro g hg
    rw [hz] at hg
    obtain ⟨f, _, rfl⟩ := List.mem_map.mp hg
    show ((493 : Nat) &&& 73 != 0) = true
    decide

/-- Witness for the amended C7 on a two-file set with one non-executable
member. -/
theorem c7_amended_witness :
    extract_archive (create_archive .Tgz [⟨"tool", 0o755, [7]⟩, ⟨"doc", 0o644, [9]⟩]) =
        [⟨"tool", 0o755, [7]⟩, ⟨"doc", 0o644, [9]⟩] ∧
    (extract_archive (create_archive .Zip [⟨"tool", 0o755, [7]⟩, ⟨"doc", 0o644, [9]⟩])).map
        (fun f => f.name) =
      [(⟨"tool", 0o755, [7]⟩ : SrcFile), ⟨"doc", 0o644, [9]⟩].map (fun f => f.name) ∧
    (extract_archive (create_archive .Zip [⟨"tool", 0o755, [7]⟩, ⟨"doc", 0o644, [9]⟩])).map
        (fun f => f.content) =
      [(⟨"tool", 0o755, [7]⟩ : SrcFile), ⟨"doc", 0o644, [9]⟩].map (fun f => f.content) ∧
    ∀ g ∈ extract_archive (create_archive .Zip
        [⟨"tool", 0o755, [7]⟩, ⟨"doc", 0o644, [9]⟩]), is_executable g = true :=
  c7_amended_roundtrip [⟨"tool", 0o755, [7]⟩, ⟨"doc", 0o644, [9]⟩] (by decide)

/-! ## C2 — idempotent release creation and delete-then-upload -/

/-- Members mapping to equal keys under a nodup projection are equal. -/
theorem nodup_map_eq_of_eq {α β : Type} (f : α → β) :
    ∀ l : List α, (l.map f).Nodup → ∀ a ∈ l, ∀ b ∈ l, f a = f b → a = b := by
  intro l
  induction l with
  | nil =>
    intro _ a ha
    simp at ha
  | cons x t ih =>
    intro h a ha b hb hf
    rw [List.map_cons, List.nodup_cons] at h
    obtain ⟨hx, ht⟩ := h
    rcases List.mem_cons.mp ha with rfl | ha2
    · rcases List.mem_cons.mp hb with rfl | hb2
      · rfl
      · exact absurd (List.mem_map.mpr ⟨b, hb2, hf.symm⟩) hx
    · rcases List.mem_cons.mp hb with rfl | hb2
      · exact absurd (List.mem_map.mpr ⟨a, ha2, hf⟩) hx
      · exact ih ht a ha2 b hb2 hf

/-- When the predicate ignores the mapped change, `find?` commutes with the
map. -/
theorem find?_map_pres {α : Type} (g : α → α) (p : α → Bool) (hp : ∀ x, p (g x) = p x) :
    ∀ l : List α, (l.map g).find? p = (l.find? p).map g := by
  intro l
  induction l with
  | nil => rfl
  | cons x t ih =>
    rw [List.map_cons, List.find?_cons, List.find?_cons, hp x]
    cases p x <;> simp [ih]

/-- Appending a fresh element keeps a list duplicate-free. -/
theorem nodup_append_singleton {β : Type} (l : List β) (x : β) (hl : l.Nodup) (hx : x ∉ l) :
    (l ++ [x]).Nodup := by
  rw [List.nodup_append]
  refine ⟨hl, List.nodup_singleton x, ?_⟩
  rw [List.disjoint_left]
  intro a ha hax
  rw [List.mem_singleton.mp hax] at ha
  exact hx ha

/-- A successful `upload_asset` against a release that holds no asset of
that name attaches the asset with a fresh id. -/
theorem upload_asset_eq (st : ForgeState) (rid : Nat) (asset_name : String) (r : ForgeRelease)
    (hf : st.releases.find? (fun r2 => r2.id == rid) = some r)
    (hany : r.assets.any (fun a => a.name == asset_name) = false) :
    upload_asset st rid asset_name = .ok ⟨st.releases.map (fun r2 =>
        if r2.id == rid then { r2 with assets := r2.assets ++ [⟨st.next_id, asset_name⟩] }
        else r2),
      st.next_id + 1⟩ := by
  unfold upload_asset
  rw [hf]
  simp [hany]

/-- The delete-then-upload step of the publish loop: with distinct release
ids and at most one asset per name on every release, the step succeeds and
restores the at-most-one-per-name invariant with the uploaded name present
exactly once on the targeted release. -/
theorem upload_replace_preserves (st : ForgeState) (rid : Nat) (asset_name : String)
    (hrid : releaseIdsUnique st) (hnames : ∀ r ∈ st.releases, assetNamesUnique r)
    (hex : ∃ r ∈ st.releases, r.id = rid) :
    ∃ st2, upload_with_replace st rid asset_name = .ok st2 ∧
      (∀ r ∈ st2.releases, assetNamesUnique r) ∧
      ∃ r2 ∈ st2.releases, r2.id = rid ∧
        (r2.assets.map (fun a => a.name)).count asset_name = 1 := by
  obtain ⟨rex, hrex, hrexid⟩ := hex
  have hfind_ne : st.releases.find? (fun r => r.id == rid) ≠ none := by
    intro hnone
    rw [List.find?_eq_none] at hnone
    exact hnone rex hrex (by simp [hrexid])
  obtain ⟨r0, hf0⟩ := Option.ne_none_iff_exists'.mp hfind_ne
  have hr0id : r0.id = rid := by simpa using List.find?_some hf0
  have hr0mem : r0 ∈ st.releases := List.mem_of_find?_eq_some hf0
  have hbeq0 : (r0.id == rid) = true := by simp [hr0id]
  cases hfa : r0.assets.find? (fun a => a.name == asset_name) with
  | none =>
    have hae : asset_exists st rid asset_name = none := by
      unfold asset_exists
      rw [hf0]
      simp [hfa]
    have hnoname : ∀ a ∈ r0.assets, a.name ≠ asset_name := by
      rw [List.find?_eq_none] at hfa
      intro a ha heq
      exact hfa a ha (by simp [heq])
    have hany : r0.assets.any (fun a => a.name == asset_name) = false := by
      rw [← Bool.not_eq_true, List.any_eq_true]
      rintro ⟨a, ha, hb⟩
      exact hnoname a ha (by simpa using hb)
    have hrun : upload_with_replace st rid asset_name = .ok ⟨st.releases.map (fun r2 =>
        if r2.id == rid then { r2 with assets := r2.assets ++ [⟨st.next_id, asset_name⟩] }
        else r2), st.next_id + 1⟩ := by
      unfold upload_with_replace
      rw [hae]
      exact upload_asset_eq st rid asset_name r0 hf0 hany
    refine ⟨_, hrun, ?_, ?_⟩
    · intro r hmem
      obtain ⟨r2, hr2mem, rfl⟩ := List.mem_map.mp hmem
      by_cases hid : (r2.id == rid) = true
      · have hr2eq : r2 = r0 := nodup_map_eq_of_eq (fun r : ForgeRelease => r.id) st.releases hrid r2 hr2mem
          r0 hr0mem (by show r2.id = r0.id; rw [hr0id]; exact beq_iff_eq.mp hid)
        rw [if_pos hid]
        unfold assetNamesUnique
        rw [List.map_append]
        refine nodup_append_singleton _ _ (hnames r2 hr2mem) ?_
        intro hmem2
        obtain ⟨a, ha, haeq⟩ := List.mem_map.mp hmem2
        rw [hr2eq] at ha
        exact hnoname a ha haeq
      · rw [if_neg hid]
        exact hnames r2 hr2mem
    · refine ⟨({ r0 with assets := r0.assets ++ [(⟨st.next_id, asset_name⟩ : ForgeAsset)] } :
          ForgeRelease), ?_, hr0id, ?_⟩
      · apply List.mem_map.mpr
        exact ⟨r0, hr0mem, by rw [if_pos hbeq0]⟩
      · show ((r0.assets ++ [(⟨st.next_id, asset_name⟩ : ForgeAsset)]).map
            (fun a => a.name)).count asset_name = 1
        rw [List.map_append, List.count_append]
        have h0 : (r0.assets.map (fun a => a.name)).count asset_name = 0 := by
          rw [List.count_eq_zero]
          intro hmem2
          obtain ⟨a, ha, haeq⟩ := List.mem_map.mp hmem2
          exact hnoname a ha haeq
        rw [h0]
        simp
  | some a0 =>
    have ha0mem : a0 ∈ r0.assets := List.mem_of_find?_eq_some hfa
    have ha0name : a0.name = asset_name := by simpa using List.find?_some hfa
    have hae : asset_exists st rid asset_name = some a0.id := by
      unfold asset_exists
      rw [hf0]
      simp [hfa]
    have honlya0 : ∀ a ∈ r0.assets, a.name = asset_name → a = a0 := fun a ha haeq =>
      nodup_map_eq_of_eq (fun a : ForgeAsset => a.name) r0.assets (hnames r0 hr0mem) a ha a0 ha0mem
        (by show a.name = a0.name; rw [haeq, ha0name])
    have hst1rel : (delete_asset st a0.id).releases =
        st.releases.map (fun r => { r with
          assets := r.assets.filter (fun a => a.id != a0.id) }) := rfl
    have hfilt : ∀ a ∈ r0.assets.filter (fun a => a.id != a0.id), a.name ≠ asset_name := by
      intro a ha heq
      have hmem2 := List.mem_filter.mp ha
      have haa0 := honlya0 a hmem2.1 heq
      rw [haa0] at hmem2
      simp at hmem2
    have hfind1 : (delete_asset st a0.id).releases.find? (fun r => r.id == rid) =
        some { r0 with assets := r0.assets.filter (fun a => a.id != a0.id) } := by
      rw [hst1rel, find?_map_pres (fun r : ForgeRelease =>
        { r with assets := r.assets.filter (fun a => a.id != a0.id) })
        (fun r => r.id == rid) (fun x => rfl) st.releases, hf0]
      rfl
    have hany1 : ({ r0 with assets := r0.assets.filter (fun a => a.id != a0.id) } :
        ForgeRelease).assets.any (fun a => a.name == asset_name) = false := by
      rw [← Bool.not_eq_true, List.any_eq_true]
      rintro ⟨a, ha, hb⟩
      exact hfilt a ha (by simpa using hb)
    have hrun : upload_with_replace st rid asset_name =
        .ok ⟨(delete_asset st a0.id).releases.map (fun r2 =>
          if r2.id == rid then { r2 with
            assets := r2.assets ++ [⟨(delete_asset st a0.id).next_id, asset_name⟩] }
          else r2), (delete_asset st a0.id).next_id + 1⟩ := by
      unfold upload_with_replace
      rw [hae]
      exact upload_asset_eq (delete_asset st a0.id) rid asset_name _ hfind1 hany1
    refine ⟨_, hrun, ?_, ?_⟩
    · intro r hmem
      obtain ⟨r2, hr2mem, rfl⟩ := List.mem_map.mp hmem
      rw [hst1rel] at hr2mem
      obtain ⟨r3, hr3mem, rfl⟩ := List.mem_map.mp hr2mem
      have hsub : ((r3.assets.filter (fun a => a.id != a0.id)).map (fun a => a.name)).Sublist
          (r3.assets.map (fun a => a.name)) := (List.filter_sublist r3.assets).map _
      have hnodupfilt : ((r3.assets.filter (fun a => a.id != a0.id)).map
          (fun a => a.name)).Nodup := (hnames r3 hr3mem).sublist hsub
      by_cases hid : (r3.id == rid) = true
      · have hr3eq : r3 = r0 := nodup_map_eq_of_eq (fun r : ForgeRelease => r.id) st.releases hrid r3 hr3mem
          r0 hr0mem (by show r3.id = r0.id; rw [hr0id]; exact beq_iff_eq.mp hid)
        rw [if_pos hid]
        unfold assetNamesUnique
        rw [List.map_append]
        refine nodup_append_singleton _ _ hnodupfilt ?_
        intro hmem2
        obtain ⟨a, ha, haeq⟩ := List.mem_map.mp hmem2
        rw [hr3eq] at ha
        exact hfilt a ha haeq
      · rw [if_neg hid]
        exact hnodupfilt
    · refine ⟨({ r0 with assets := (r0.assets.filter (fun a => a.id != a0.id)) ++
          [(⟨(delete_asset st a0.id).next_id, asset_name⟩ : ForgeAsset)] } : ForgeRelease),
          ?_, hr0id, ?_⟩
      · apply List.mem_map.mpr
        refine ⟨{ r0 with assets := r0.assets.filter (fun a => a.id != a0.id) }, ?_, ?_⟩
        · rw [hst1rel]
          exact List.mem_map.mpr ⟨r0, hr0mem, rfl⟩
        · rw [if_pos hbeq0]
      · show (((r0.assets.filter (fun a => a.id != a0.id)) ++
            [(⟨(delete_asset st a0.id).next_id, asset_name⟩ : ForgeAsset)]).map
            (fun a => a.name)).count asset_name = 1
        rw [List.map_append, List.count_append]
        have h0 : ((r0.assets.filter (fun a => a.id != a0.id)).map
            (fun a => a.name)).count asset_name = 0 := by
          rw [List.count_eq_zero]
          intro hmem2
          obtain ⟨a, ha, haeq⟩ := List.mem_map.mp hmem2
          exact hfilt a ha haeq
        rw [h0]
        simp

/-- C2: publishing to a tag that already has a release returns that release
with the forge state untouched (no duplicate, no metadata change); and the
delete-then-upload step keeps at most one asset per name on every release,
with the uploaded name present exactly once on the targeted release. -/
theorem c2_release_reuse_and_asset_replacement :
    (∀ (st : ForgeState) (tag : String) (draft : Bool) (target_commitish : Option String)
        (r : ForgeRelease),
        st.releases.find? (fun x => x.tag == tag) = some r →
        create_release st tag draft target_commitish = (st, r))
    ∧ (∀ (st : ForgeState) (rid : Nat) (asset_name : String),
        releaseIdsUnique st → (∀ r ∈ st.releases, assetNamesUnique r) →
        (∃ r ∈ st.releases, r.id = rid) →
        ∃ st2, upload_with_replace st rid asset_name = .ok st2 ∧
          (∀ r ∈ st2.releases, assetNamesUnique r) ∧
          ∃ r2 ∈ st2.releases, r2.id = rid ∧
            (r2.assets.map (fun a => a.name)).count asset_name = 1) := by
  constructor
  · intro st tag draft target_commitish r h
    unfold create_release
    rw [h]
  · exact upload_replace_preserves

/-- Witness for C2 on a one-release forge: publishing to the existing tag
reuses it unchanged, and re-uploading an asset name that is already present
ends with that name present exactly once. -/
theorem c2_witness :
    (create_release ⟨[⟨5, "v1", false, none, [⟨1, "t.tar.gz"⟩]⟩], 10⟩ "v1" true (some "c") =
      (⟨[⟨5, "v1", false, none, [⟨1, "t.tar.gz"⟩]⟩], 10⟩,
        ⟨5, "v1", false, none, [⟨1, "t.tar.gz"⟩]⟩)) ∧
    ∃ st2, upload_with_replace ⟨[⟨5, "v1", false, none, [⟨1, "t.tar.gz"⟩]⟩], 10⟩ 5
        "t.tar.gz" = .ok st2 ∧
      (∀ r ∈ st2.releases, assetNamesUnique r) ∧
      ∃ r2 ∈ st2.releases, r2.id = 5 ∧
        (r2.assets.map (fun a => a.name)).count "t.tar.gz" = 1 := by
  constructor
  · exact c2_release_reuse_and_asset_replacement.1 _ "v1" true (some "c") _ rfl
  · exact c2_release_reuse_and_asset_replacement.2 _ 5 "t.tar.gz"
      (by unfold releaseIdsUnique; decide)
      (by unfold assetNamesUnique; decide)
      (by decide)

end CargoGh
